import Mathlib

/-!
Verification development for the curve-mathematics core of
curve-visualizer-studio: Hermite, Bezier and B-spline curve evaluation,
conversion, trimming and differentiation.

Numbers are modelled as rationals (exact arithmetic). JavaScript
out-of-range array reads are modelled as the default value 0; the
properties below only exercise in-range indices.
-/

namespace CurveStudio

/-- Point type: a 2D point with x and y coordinates (source type Point). -/
structure Point where
  x : ℚ
  y : ℚ
  deriving DecidableEq, Repr

/-- Origin, used as the default value for list reads of points. -/
def pZero : Point := ⟨0, 0⟩

/-- Read knots[i] as in the source; out of range is modelled as 0. -/
def knotAt (knots : List ℚ) (i : ℕ) : ℚ := knots.getD i 0

/-- Cox-de Boor recursion formula for B-spline basis functions, from
coxDeBoor in the B-spline module.  In the base case the source tests
i === knots.length - k - 2 with k = 0; the comparison is carried out
over the integers to match JavaScript arithmetic. -/
def coxDeBoor : ℕ → ℕ → ℚ → List ℚ → ℚ
  | i, 0, u, knots =>
      if (knotAt knots i ≤ u ∧ u < knotAt knots (i+1)) ∨
         (u = knotAt knots (knots.length - 1) ∧ (i : ℤ) = (knots.length : ℤ) - 0 - 2)
      then 1 else 0
  | i, k+1, u, knots =>
      let denom1 := knotAt knots (i + (k+1)) - knotAt knots i
      let term1 := if denom1 ≠ 0
        then ((u - knotAt knots i) / denom1) * coxDeBoor i k u knots else 0
      let denom2 := knotAt knots (i + (k+1) + 1) - knotAt knots (i+1)
      let term2 := if denom2 ≠ 0
        then ((knotAt knots (i + (k+1) + 1) - u) / denom2) * coxDeBoor (i+1) k u knots else 0
      term1 + term2

/-- Evaluate a point on a B-spline curve, from evaluateBSpline: the
basis-weighted sum of the control points. -/
def evaluateBSpline (controlPoints : List Point) (degree : ℕ) (u : ℚ)
    (knots : List ℚ) : Point :=
  ⟨∑ i ∈ Finset.range controlPoints.length,
      (controlPoints.getD i pZero).x * coxDeBoor i degree u knots,
   ∑ i ∈ Finset.range controlPoints.length,
      (controlPoints.getD i pZero).y * coxDeBoor i degree u knots⟩

/-- Adjacent-pair non-decreasing check, the loop inside validateKnots. -/
def nondecr : List ℚ → Bool
  | a :: b :: rest => a ≤ b && nondecr (b :: rest)
  | _ => true

/-- Validate a knot vector, from validateKnots: length must be n + k + 1
and the knots must be non-decreasing. -/
def validateKnots (knots : List ℚ) (n k : ℕ) : Bool :=
  knots.length = n + k + 1 && nondecr knots

/-- Generate a uniform knot vector, from generateUniformKnots: k+1 zeros,
the interior knots i/(n-k) for i = 1 .. n-k-1, then k+1 ones.  The push
loops are modelled as list concatenation; the JavaScript interior loop
runs max(0, n-k-1) times, which the natural subtraction reproduces. -/
def generateUniformKnots (n k : ℕ) : List ℚ :=
  List.replicate (k+1) 0
  ++ (List.range (n - k - 1)).map (fun (i : ℕ) => ((i : ℚ) + 1) / ((n : ℚ) - (k : ℚ)))
  ++ List.replicate (k+1) 1

/-- Calculate the derivative of a B-spline curve, from bsplineDerivative.
The factor division is unguarded in the source; rational division by zero
yields 0 here, and the Option-valued variant below tracks the actual
divisions performed. -/
def bsplineDerivative (controlPoints : List Point) (degree : ℕ) (u : ℚ)
    (knots : List ℚ) : Point :=
  if 1 ≤ degree then
    let derivCtrlPts := (List.range (controlPoints.length - 1)).map (fun i =>
      let factor := (degree : ℚ) / (knotAt knots (i + degree + 1) - knotAt knots (i+1))
      Point.mk (factor * ((controlPoints.getD (i+1) pZero).x - (controlPoints.getD i pZero).x))
               (factor * ((controlPoints.getD (i+1) pZero).y - (controlPoints.getD i pZero).y)))
    evaluateBSpline derivCtrlPts (degree - 1) u ((knots.drop 1).dropLast)
  else ⟨0, 0⟩

/-- Derivative of a B-spline as worded by the spec: for degree at least 1,
difference control points D i = degree/(knots[i+degree+1]-knots[i+1]) *
(P[i+1]-P[i]) for i = 0 .. n-1, evaluated as a B-spline of degree one less
over the knot vector with the first and the last knot removed; for degree
0 the derivative is the zero vector. -/
def bsplineDerivativeSpec (controlPoints : List Point) (degree : ℕ) (u : ℚ)
    (knots : List ℚ) : Point :=
  if 1 ≤ degree then
    let D := fun (i : ℕ) =>
      let factor := (degree : ℚ) / (knotAt knots (i + degree + 1) - knotAt knots (i+1))
      Point.mk (factor * ((controlPoints.getD (i+1) pZero).x - (controlPoints.getD i pZero).x))
               (factor * ((controlPoints.getD (i+1) pZero).y - (controlPoints.getD i pZero).y))
    evaluateBSpline ((List.range (controlPoints.length - 1)).map D)
      (degree - 1) u knots.tail.dropLast
  else ⟨0, 0⟩

/-- Division that fails instead of defaulting on a zero denominator; the
safe variants below perform exactly the divisions the source performs. -/
def safeDiv (a b : ℚ) : Option ℚ := if b = 0 then none else some (a / b)

/-- Sequence an Option-valued function over a list. -/
def mapOption {α β : Type} (f : α → Option β) : List α → Option (List β)
  | [] => some []
  | a :: as => (f a).bind fun b => (mapOption f as).map fun bs => b :: bs

/-- Cox-de Boor recursion with every division routed through safeDiv,
keeping the zero-denominator guards of the source.  Failure would mean a
division by zero is attempted. -/
def coxDeBoorSafe : ℕ → ℕ → ℚ → List ℚ → Option ℚ
  | i, 0, u, knots =>
      some (if (knotAt knots i ≤ u ∧ u < knotAt knots (i+1)) ∨
               (u = knotAt knots (knots.length - 1) ∧ (i : ℤ) = (knots.length : ℤ) - 0 - 2)
            then 1 else 0)
  | i, k+1, u, knots =>
      let denom1 := knotAt knots (i + (k+1)) - knotAt knots i
      let denom2 := knotAt knots (i + (k+1) + 1) - knotAt knots (i+1)
      (if denom1 ≠ 0
        then (safeDiv (u - knotAt knots i) denom1).bind fun q =>
               (coxDeBoorSafe i k u knots).map fun r => q * r
        else some 0).bind fun term1 =>
      (if denom2 ≠ 0
        then (safeDiv (knotAt knots (i + (k+1) + 1) - u) denom2).bind fun q =>
               (coxDeBoorSafe (i+1) k u knots).map fun r => q * r
        else some 0).map fun term2 => term1 + term2

/-- B-spline evaluation on top of the safe basis computation. -/
def evaluateBSplineSafe (controlPoints : List Point) (degree : ℕ) (u : ℚ)
    (knots : List ℚ) : Option Point :=
  (mapOption (fun i => coxDeBoorSafe i degree u knots)
      (List.range controlPoints.length)).map fun bs =>
    ⟨∑ i ∈ Finset.range controlPoints.length,
        (controlPoints.getD i pZero).x * bs.getD i 0,
     ∑ i ∈ Finset.range controlPoints.length,
        (controlPoints.getD i pZero).y * bs.getD i 0⟩

/-- B-spline derivative with every division routed through safeDiv.  The
factor division of the source carries no zero-denominator guard, so it
fails exactly when some difference knots[i+degree+1] - knots[i+1] is 0. -/
def bsplineDerivativeSafe (controlPoints : List Point) (degree : ℕ) (u : ℚ)
    (knots : List ℚ) : Option Point :=
  if 1 ≤ degree then
    (mapOption (fun i =>
        (safeDiv (degree : ℚ) (knotAt knots (i + degree + 1) - knotAt knots (i+1))).map
          fun factor =>
            Point.mk (factor * ((controlPoints.getD (i+1) pZero).x - (controlPoints.getD i pZero).x))
                     (factor * ((controlPoints.getD (i+1) pZero).y - (controlPoints.getD i pZero).y)))
      (List.range (controlPoints.length - 1))).bind fun derivCtrlPts =>
    evaluateBSplineSafe derivCtrlPts (degree - 1) u ((knots.drop 1).dropLast)
  else some ⟨0, 0⟩

/-- Binomial coefficient by incremental product, from binomial.  The k < 0
guard of the source is vacuous over natural-number indices. -/
def binomial (n k : ℕ) : ℚ :=
  if k > n then 0
  else if k = 0 ∨ k = n then 1
  else (List.range k).foldl
    (fun (result : ℚ) (i : ℕ) =>
      result * (((n : ℚ) + 1 - ((i : ℚ) + 1)) / ((i : ℚ) + 1))) 1

/-- Bernstein basis polynomial, from bernstein.  The i < 0 guard of the
source is vacuous over natural-number indices. -/
def bernstein (i n : ℕ) (u : ℚ) : ℚ :=
  if i > n then 0
  else binomial n i * (1 - u) ^ (n - i) * u ^ i

/-- Evaluate a point on a Bezier curve with the Bernstein basis, from
evaluateBezier. -/
def evaluateBezier (points : List Point) (u : ℚ) : Point :=
  ⟨∑ i ∈ Finset.range ((points.length - 1) + 1),
      (points.getD i pZero).x * bernstein i (points.length - 1) u,
   ∑ i ∈ Finset.range ((points.length - 1) + 1),
      (points.getD i pZero).y * bernstein i (points.length - 1) u⟩

/-- One level of linear interpolation between consecutive control points:
the inner loop shared by deCasteljau and getTrimmedControlPoints. -/
def lerpPoints (u : ℚ) (points : List Point) : List Point :=
  List.zipWith
    (fun p q => Point.mk ((1 - u) * p.x + u * q.x) ((1 - u) * p.y + u * q.y))
    points points.tail

/-- The de Casteljau algorithm, from deCasteljau: a single point returns
itself, otherwise interpolate one level and recurse.  The source diverges
on an empty input; the empty case here is an arbitrary total completion
and the termination claim treats the empty input separately. -/
def deCasteljau : List Point → ℚ → Point
  | [], _ => pZero
  | [p], _ => p
  | p :: q :: rest, u => deCasteljau (lerpPoints u (p :: q :: rest)) u
termination_by ps _ => ps.length
decreasing_by simp [lerpPoints]

/-- Step-counted version of deCasteljau, used to state termination: each
recursive call consumes one unit of fuel and none is returned when the
fuel runs out before the single-point base case is reached. -/
def deCasteljauFuel : ℕ → List Point → ℚ → Option Point
  | 0, _, _ => none
  | fuel+1, points, u =>
      if points.length = 1 then some (points.headD pZero)
      else deCasteljauFuel fuel (lerpPoints u points) u

/-- Bezier trimming range, from type TrimRange. -/
structure TrimRange where
  u1 : ℚ
  u2 : ℚ
  deriving DecidableEq, Repr

/-- First loop of getTrimmedControlPoints: collect the first point of each
de Casteljau level at u1. -/
def collectHeads : ℕ → List Point → ℚ → List Point
  | 0, _, _ => []
  | m+1, temp, u1 => temp.headD pZero :: collectHeads m (lerpPoints u1 temp) u1

/-- Second loop of getTrimmedControlPoints: collect the last point of each
de Casteljau level at u2, prepending as the source unshift does. -/
def collectLasts : ℕ → List Point → ℚ → List Point
  | 0, _, _ => []
  | m+1, temp, u2 => collectLasts m (lerpPoints u2 temp) u2 ++ [temp.getLastD pZero]

/-- Trimmed control points for a Bezier curve, from
getTrimmedControlPoints: blend the collected left and right points with
weight alpha = (u2 - u1) / (1 - u1).  The loops run points.length times,
as the source loops i = 0 .. n with n = points.length - 1 do. -/
def getTrimmedControlPoints (points : List Point) (range : TrimRange) : List Point :=
  let leftPoints := collectHeads points.length points range.u1
  let rightPoints := collectLasts points.length points range.u2
  let alpha := (range.u2 - range.u1) / (1 - range.u1)
  (List.range points.length).map (fun i =>
    Point.mk ((1 - alpha) * (leftPoints.getD i pZero).x + alpha * (rightPoints.getD i pZero).x)
             ((1 - alpha) * (leftPoints.getD i pZero).y + alpha * (rightPoints.getD i pZero).y))

/-- Vector multiplication result[i] = sum of A[i][j] * v[j] over the
column count of the first row, from multiplyVector.  The dimension check
of the source is not modelled; every use below has matching sizes. -/
def multiplyVector (A : List (List ℚ)) (v : List ℚ) : List ℚ :=
  A.map (fun row => ∑ j ∈ Finset.range (A.headD []).length, row.getD j 0 * v.getD j 0)

/-- The constant 4 by 4 Hermite basis-change matrix, from hermiteMatrix. -/
def hermiteMatrix : List (List ℚ) :=
  [[2, -2, 1, 1], [-3, 3, -2, -1], [0, 0, 1, 0], [1, 0, 0, 0]]

/-- Coefficients of a cubic polynomial a u^3 + b u^2 + c u + d, from type
CubicPolynomial. -/
structure CubicPolynomial where
  a : ℚ
  b : ℚ
  c : ℚ
  d : ℚ
  deriving DecidableEq, Repr

/-- Hermite form: endpoints P0, P1 and tangents T0, T1, from type
HermiteForm. -/
structure HermiteForm where
  P0 : Point
  P1 : Point
  T0 : Point
  T1 : Point
  deriving DecidableEq, Repr

/-- Convert a Hermite form to per-axis cubic coefficients by applying the
Hermite matrix to the geometry vector, from hermiteToPolynomial. -/
def hermiteToPolynomial (form : HermiteForm) : CubicPolynomial × CubicPolynomial :=
  let gx := [form.P0.x, form.P1.x, form.T0.x, form.T1.x]
  let cx := multiplyVector hermiteMatrix gx
  let gy := [form.P0.y, form.P1.y, form.T0.y, form.T1.y]
  let cy := multiplyVector hermiteMatrix gy
  (⟨cx.getD 0 0, cx.getD 1 0, cx.getD 2 0, cx.getD 3 0⟩,
   ⟨cy.getD 0 0, cy.getD 1 0, cy.getD 2 0, cy.getD 3 0⟩)

/-- Convert per-axis cubic coefficients back to a Hermite form, from
polynomialToHermite: P0 = p(0), P1 = p(1), T0 = dp(0), T1 = dp(1). -/
def polynomialToHermite (polyX polyY : CubicPolynomial) : HermiteForm :=
  { P0 := ⟨polyX.d, polyY.d⟩
    P1 := ⟨polyX.a + polyX.b + polyX.c + polyX.d, polyY.a + polyY.b + polyY.c + polyY.d⟩
    T0 := ⟨polyX.c, polyY.c⟩
    T1 := ⟨3 * polyX.a + 2 * polyX.b + polyX.c, 3 * polyY.a + 2 * polyY.b + polyY.c⟩ }

/-- Bezier-to-power-basis conversion matrix, from bezierToPowerMatrix:
defined for degrees 2 and 3 only, every other degree raises the
NotImplemented error of the source. -/
def bezierToPowerMatrix (n : ℕ) : Except String (List (List ℚ)) :=
  if n = 2 then
    Except.ok [[1, -2, 1], [-2, 2, 0], [1, 0, 0]]
  else if n = 3 then
    Except.ok [[-1, 3, -3, 1], [3, -6, 3, 0], [-3, 3, 0, 0], [1, 0, 0, 0]]
  else
    Except.error ("Bezier to power basis matrix not implemented for degree " ++ toString n)

/-- Convert Bezier control points to power-basis coefficients per axis,
from bezierToPolynomial; propagates the NotImplemented failure. -/
def bezierToPolynomial (points : List Point) : Except String (List ℚ × List ℚ) :=
  match bezierToPowerMatrix (points.length - 1) with
  | Except.error e => Except.error e
  | Except.ok matrix =>
      Except.ok (multiplyVector matrix (points.map (fun p => p.x)),
                 multiplyVector matrix (points.map (fun p => p.y)))

/-- Horner evaluation of power-basis coefficients listed from the highest
degree down, used to state what the conversion matrices compute. -/
def evalPower (coeffs : List ℚ) (u : ℚ) : ℚ :=
  coeffs.foldl (fun acc c => acc * u + c) 0

/-- Sequencing an Option-valued function that succeeds on every element
of the list yields the plain map. -/
theorem mapOption_eq_map {α β : Type} (f : α → Option β) (g : α → β)
    (l : List α) (h : ∀ a ∈ l, f a = some (g a)) :
    mapOption f l = some (l.map g) := by
  induction l with
  | nil => rfl
  | cons a as ih =>
      simp only [mapOption, List.map_cons]
      rw [h a (by simp), ih (fun b hb => h b (by simp [hb]))]
      rfl

/-- The guarded Cox-de Boor recursion never attempts a division by zero:
the safe variant always succeeds, with the same value. -/
theorem coxDeBoorSafe_eq :
    ∀ (k i : ℕ) (u : ℚ) (knots : List ℚ),
      coxDeBoorSafe i k u knots = some (coxDeBoor i k u knots) := by
  intro k
  induction k with
  | zero => intro i u knots; rfl
  | succ k ih =>
      intro i u knots
      simp only [coxDeBoorSafe, coxDeBoor, ih, safeDiv]
      by_cases h1 : knotAt knots (i + (k+1)) - knotAt knots i = 0 <;>
        by_cases h2 : knotAt knots (i + (k+1) + 1) - knotAt knots (i+1) = 0 <;>
        simp [h1, h2]

/-- Reading back an element of a mapped range list. -/
theorem rangeMap_getD {α : Type} (g : ℕ → α) (d : α) (n i : ℕ) (h : i < n) :
    ((List.range n).map g).getD i d = g i := by
  rw [List.getD_eq_getElem?_getD, List.getElem?_map, List.getElem?_range h]
  rfl

/-- The safe B-spline evaluation always succeeds, with the same value as
the plain evaluation. -/
theorem evaluateBSplineSafe_eq (controlPoints : List Point) (degree : ℕ) (u : ℚ)
    (knots : List ℚ) :
    evaluateBSplineSafe controlPoints degree u knots
      = some (evaluateBSpline controlPoints degree u knots) := by
  rw [evaluateBSplineSafe,
    mapOption_eq_map (fun i => coxDeBoorSafe i degree u knots)
      (fun i => coxDeBoor i degree u knots) (List.range controlPoints.length)
      (fun a _ => coxDeBoorSafe_eq degree a u knots)]
  refine congrArg some ?_
  have hgetD : ∀ i ∈ Finset.range controlPoints.length,
      ((List.range controlPoints.length).map
        (fun j => coxDeBoor j degree u knots)).getD i 0
        = coxDeBoor i degree u knots := fun i hi =>
    rangeMap_getD _ _ _ _ (Finset.mem_range.mp hi)
  exact congrArg₂ Point.mk
    (Finset.sum_congr rfl fun i hi => by rw [hgetD i hi])
    (Finset.sum_congr rfl fun i hi => by rw [hgetD i hi])

/-- C1: for the valid clamped knot vector [0,0,0,1,1,1] of degree 2 with 3
control points, the B-spline basis values at the final knot u = 1 sum to
0, not 1, and the curve collapses to the origin there: the right-endpoint
inclusion rule of the base case fires at index length - 2 only, which the
zero-length end spans then suppress, so the claimed partition of unity
fails at the right end of the valid domain. -/
theorem C1_partition_of_unity_fails_at_final_knot :
    validateKnots [0, 0, 0, 1, 1, 1] 3 2 = true
    ∧ (∑ i ∈ Finset.range 3, coxDeBoor i 2 1 [0, 0, 0, 1, 1, 1]) = 0
    ∧ (∑ i ∈ Finset.range 3, coxDeBoor i 2 1 [0, 0, 0, 1, 1, 1]) ≠ 1
    ∧ evaluateBSpline [⟨0,0⟩, ⟨1,1⟩, ⟨2,0⟩] 2 1 [0, 0, 0, 1, 1, 1] = ⟨0, 0⟩ := by
  have h0 : coxDeBoor 0 2 1 [0, 0, 0, 1, 1, 1] = 0 := by norm_num [coxDeBoor, knotAt]
  have h1 : coxDeBoor 1 2 1 [0, 0, 0, 1, 1, 1] = 0 := by norm_num [coxDeBoor, knotAt]
  have h2 : coxDeBoor 2 2 1 [0, 0, 0, 1, 1, 1] = 0 := by norm_num [coxDeBoor, knotAt]
  refine ⟨by decide, ?_, ?_, ?_⟩
  · rw [Finset.sum_range_succ, Finset.sum_range_succ, Finset.sum_range_one, h0, h1, h2]
    norm_num
  · rw [Finset.sum_range_succ, Finset.sum_range_succ, Finset.sum_range_one, h0, h1, h2]
    norm_num
  · simp only [evaluateBSpline, List.length_cons, List.length_nil]
    norm_num [Finset.sum_range_succ, Finset.sum_range_one, h0, h1, h2, Point.mk.injEq]

/-- C5: for degree at least 1, bsplineDerivative equals the evaluation of
the degree-minus-one B-spline over the difference control points
D i = degree/(knots[i+degree+1]-knots[i+1]) * (P[i+1]-P[i]) on the knot
vector with the first and last knot removed, and for degree 0 it returns
the zero vector for every parameter, control-point list and knot vector. -/
theorem C5_bsplineDerivative_matches_spec
    (controlPoints : List Point) (degree : ℕ) (u : ℚ) (knots : List ℚ) :
    (1 ≤ degree →
      bsplineDerivative controlPoints degree u knots
        = bsplineDerivativeSpec controlPoints degree u knots)
    ∧ (degree = 0 →
      bsplineDerivative controlPoints degree u knots = ⟨0, 0⟩) := by
  constructor
  · intro h
    rw [bsplineDerivative, bsplineDerivativeSpec, if_pos h, if_pos h, List.drop_one]
  · intro h
    subst h
    rfl

/-- Concrete instantiation of the C5 theorem at degree 1 and degree 0. -/
theorem C5_bsplineDerivative_matches_spec_witness :
    1 ≤ 1
    ∧ bsplineDerivative [⟨0,0⟩, ⟨2,1⟩] 1 0 [0, 0, 1, 1]
        = bsplineDerivativeSpec [⟨0,0⟩, ⟨2,1⟩] 1 0 [0, 0, 1, 1]
    ∧ bsplineDerivative [⟨0,0⟩, ⟨2,1⟩] 0 0 [0, 0, 1, 1] = ⟨0, 0⟩ :=
  ⟨by decide,
   (C5_bsplineDerivative_matches_spec [⟨0,0⟩, ⟨2,1⟩] 1 0 [0, 0, 1, 1]).1 (by decide),
   (C5_bsplineDerivative_matches_spec [⟨0,0⟩, ⟨2,1⟩] 0 0 [0, 0, 1, 1]).2 rfl⟩

/-- C8: whenever a term of the Cox-de Boor recursion has a zero
denominator the guard makes the term contribute zero instead of dividing,
so on any knot vector long enough to index the computation never divides
by zero and always returns a number: the variant in which every division
is partial succeeds and agrees with coxDeBoor. -/
theorem C8_coxDeBoor_never_divides_by_zero (i k : ℕ) (u : ℚ) (knots : List ℚ)
    (hlen : i + k + 1 < knots.length) :
    coxDeBoorSafe i k u knots = some (coxDeBoor i k u knots) :=
  coxDeBoorSafe_eq k i u knots

/-- Concrete instantiation of the C8 theorem. -/
theorem C8_coxDeBoor_never_divides_by_zero_witness :
    0 + 1 + 1 < ([0, 0, 1, 1] : List ℚ).length
    ∧ coxDeBoorSafe 0 1 0 [0, 0, 1, 1] = some (coxDeBoor 0 1 0 [0, 0, 1, 1]) :=
  ⟨by decide, C8_coxDeBoor_never_divides_by_zero 0 1 0 [0, 0, 1, 1] (by decide)⟩

/-- C9: the derivative factor degree/(knots[i+degree+1]-knots[i+1]) is
computed without a zero-denominator guard; under the precondition that
knots[i+1] < knots[i+degree+1] for every i below n, every division in
bsplineDerivative is fine and the all-divisions-partial variant succeeds
with the same value. -/
theorem C9_bsplineDerivative_no_division_by_zero_under_precondition
    (controlPoints : List Point) (degree : ℕ) (u : ℚ) (knots : List ℚ)
    (hdeg : 1 ≤ degree)
    (hknots : ∀ i < controlPoints.length - 1,
      knotAt knots (i+1) < knotAt knots (i + degree + 1)) :
    bsplineDerivativeSafe controlPoints degree u knots
      = some (bsplineDerivative controlPoints degree u knots) := by
  rw [bsplineDerivativeSafe, bsplineDerivative, if_pos hdeg, if_pos hdeg]
  rw [mapOption_eq_map _
    (fun i =>
      let factor := (degree : ℚ) / (knotAt knots (i + degree + 1) - knotAt knots (i+1))
      Point.mk (factor * ((controlPoints.getD (i+1) pZero).x - (controlPoints.getD i pZero).x))
               (factor * ((controlPoints.getD (i+1) pZero).y - (controlPoints.getD i pZero).y)))
    (List.range (controlPoints.length - 1))
    (fun a ha => by
      have hne : knotAt knots (a + degree + 1) - knotAt knots (a+1) ≠ 0 :=
        sub_ne_zero_of_ne (hknots a (List.mem_range.mp ha)).ne'
      simp [safeDiv, hne])]
  exact evaluateBSplineSafe_eq _ _ _ _

/-- Concrete instantiation of the C9 theorem. -/
theorem C9_bsplineDerivative_no_division_by_zero_witness :
    1 ≤ 1
    ∧ (∀ i < ([⟨0,0⟩, ⟨2,1⟩] : List Point).length - 1,
        knotAt [0, 0, 1, 1] (i+1) < knotAt [0, 0, 1, 1] (i + 1 + 1))
    ∧ bsplineDerivativeSafe [⟨0,0⟩, ⟨2,1⟩] 1 0 [0, 0, 1, 1]
        = some (bsplineDerivative [⟨0,0⟩, ⟨2,1⟩] 1 0 [0, 0, 1, 1]) :=
  ⟨by decide, by decide,
   C9_bsplineDerivative_no_division_by_zero_under_precondition
     [⟨0,0⟩, ⟨2,1⟩] 1 0 [0, 0, 1, 1] (by decide) (by decide)⟩

/-- A constant list is pairwise non-decreasing. -/
theorem pairwise_le_replicate (m : ℕ) (c : ℚ) :
    (List.replicate m c).Pairwise (· ≤ ·) := by
  induction m with
  | zero => simp
  | succ m ih =>
      rw [List.replicate_succ, List.pairwise_cons]
      exact ⟨fun b hb => le_of_eq (List.eq_of_mem_replicate hb).symm, ih⟩

/-- The boolean adjacent-pair check agrees with Chain'. -/
theorem nondecr_eq_true_iff : ∀ l : List ℚ, nondecr l = true ↔ l.Chain' (· ≤ ·)
  | [] => by simp [nondecr]
  | [a] => by simp [nondecr]
  | a :: b :: rest => by
      rw [nondecr, Bool.and_eq_true, decide_eq_true_eq,
        nondecr_eq_true_iff (b :: rest), List.chain'_cons]

/-- C6 counterexample: for 3 control points and degree 3 the generated
knot vector has length 8, not 3 + 3 + 1 = 7, because the interior loop
runs max(0, n-k-1) times while the boundary loops always contribute
2k + 2 knots. -/
theorem C6_generateUniformKnots_wrong_length_without_precondition :
    (generateUniformKnots 3 3).length ≠ 3 + 3 + 1 := by decide

/-- C6 (amended with the precondition k + 1 ≤ n): generateUniformKnots
returns a non-decreasing vector of length n + k + 1 made of k+1 zeros,
the interior knots i/(n-k) for i = 1 .. n-k-1, and k+1 ones, and
validateKnots accepts it. -/
theorem C6_generateUniformKnots_spec (n k : ℕ) (h : k + 1 ≤ n) :
    (generateUniformKnots n k).length = n + k + 1
    ∧ (generateUniformKnots n k).Pairwise (· ≤ ·)
    ∧ (generateUniformKnots n k).take (k+1) = List.replicate (k+1) (0 : ℚ)
    ∧ (generateUniformKnots n k).drop n = List.replicate (k+1) (1 : ℚ)
    ∧ (∀ i, 1 ≤ i → i ≤ n - k - 1 →
        (generateUniformKnots n k).getD (k + i) 0 = (i : ℚ) / ((n : ℚ) - (k : ℚ)))
    ∧ validateKnots (generateUniformKnots n k) n k = true := by
  have hD : (0:ℚ) < (n : ℚ) - (k : ℚ) := by
    rw [sub_pos]
    exact_mod_cast Nat.lt_of_lt_of_le (Nat.lt_succ_self k) h
  have hmid : ∀ q ∈ (List.range (n - k - 1)).map
      (fun (i : ℕ) => ((i : ℚ) + 1) / ((n : ℚ) - (k : ℚ))), 0 ≤ q ∧ q ≤ 1 := by
    intro q hq
    simp only [List.mem_map, List.mem_range] at hq
    obtain ⟨i, hi, rfl⟩ := hq
    have hle : ((i : ℚ) + 1) ≤ (n : ℚ) - (k : ℚ) := by
      have hn : (i + 1 + k : ℕ) ≤ n := by omega
      have := (Nat.cast_le (α := ℚ)).mpr hn
      push_cast at this
      linarith
    exact ⟨by positivity, by rw [div_le_one hD]; exact hle⟩
  have hlen : (generateUniformKnots n k).length = n + k + 1 := by
    simp [generateUniformKnots]
    omega
  have hpw : (generateUniformKnots n k).Pairwise (· ≤ ·) := by
    rw [generateUniformKnots, List.pairwise_append]
    refine ⟨?_, pairwise_le_replicate _ _, ?_⟩
    · rw [List.pairwise_append]
      refine ⟨pairwise_le_replicate _ _, ?_, ?_⟩
      · rw [List.pairwise_map]
        refine List.Pairwise.imp ?_ (List.pairwise_lt_range (n - k - 1))
        intro a b hab
        rw [div_le_div_iff_of_pos_right hD]
        have : (a : ℚ) < (b : ℚ) := by exact_mod_cast hab
        linarith
      · intro a ha b hb
        rw [List.eq_of_mem_replicate ha]
        exact (hmid b hb).1
    · intro a ha b hb
      rw [List.eq_of_mem_replicate hb]
      rcases List.mem_append.mp ha with ha | ha
      · rw [List.eq_of_mem_replicate ha]
        norm_num
      · exact (hmid a ha).2
  have htake : (generateUniformKnots n k).take (k+1) = List.replicate (k+1) (0:ℚ) := by
    rw [generateUniformKnots, List.append_assoc]
    exact List.take_left' (by simp)
  have hdrop : (generateUniformKnots n k).drop n = List.replicate (k+1) (1:ℚ) := by
    rw [generateUniformKnots]
    exact List.drop_left' (by simp; omega)
  have hget : ∀ i, 1 ≤ i → i ≤ n - k - 1 →
      (generateUniformKnots n k).getD (k + i) 0 = (i : ℚ) / ((n : ℚ) - (k : ℚ)) := by
    intro i h1 h2
    rw [generateUniformKnots, List.append_assoc, List.getD_eq_getElem?_getD,
      List.getElem?_append_right (by simp; omega),
      List.getElem?_append_left (by simp; omega),
      List.getElem?_map, List.getElem?_range (by simp; omega)]
    have hidx : k + i - (List.replicate (k+1) (0:ℚ)).length = i - 1 := by
      simp; omega
    rw [hidx]
    have hc : ((i - 1 : ℕ) : ℚ) = (i : ℚ) - 1 := by
      push_cast [Nat.cast_sub h1]
      ring
    simp only [Option.map_some', Option.getD_some, hc]
    ring_nf
  refine ⟨hlen, hpw, htake, hdrop, hget, ?_⟩
  rw [validateKnots, Bool.and_eq_true, decide_eq_true_eq]
  exact ⟨hlen, (nondecr_eq_true_iff _).mpr hpw.chain'⟩

/-- Concrete instantiation of the amended C6 theorem at n = 5, k = 3. -/
theorem C6_generateUniformKnots_spec_witness :
    3 + 1 ≤ 5
    ∧ ((generateUniformKnots 5 3).length = 5 + 3 + 1
       ∧ (generateUniformKnots 5 3).Pairwise (· ≤ ·)
       ∧ (generateUniformKnots 5 3).take 4 = List.replicate 4 (0:ℚ)
       ∧ (generateUniformKnots 5 3).drop 5 = List.replicate 4 (1:ℚ)
       ∧ (∀ i, 1 ≤ i → i ≤ 5 - 3 - 1 →
           (generateUniformKnots 5 3).getD (3 + i) 0 = (i : ℚ) / ((5 : ℚ) - (3 : ℚ)))
       ∧ validateKnots (generateUniformKnots 5 3) 5 3 = true) :=
  ⟨by decide, C6_generateUniformKnots_spec 5 3 (by decide)⟩

/-- C4: converting a Hermite form to its two cubic polynomials and back
returns the original form exactly, for arbitrary endpoints and tangents. -/
theorem C4_hermite_round_trip (form : HermiteForm) :
    polynomialToHermite (hermiteToPolynomial form).1 (hermiteToPolynomial form).2
      = form := by
  obtain ⟨⟨p0x, p0y⟩, ⟨p1x, p1y⟩, ⟨t0x, t0y⟩, ⟨t1x, t1y⟩⟩ := form
  simp only [hermiteToPolynomial, polynomialToHermite, multiplyVector, hermiteMatrix,
    List.map_cons, List.map_nil, List.headD_cons, List.length_cons, List.length_nil,
    List.getD_cons_zero, List.getD_cons_succ, Finset.sum_range_succ, Finset.sum_range_zero,
    HermiteForm.mk.injEq, Point.mk.injEq]
  exact ⟨⟨by ring, by ring⟩, ⟨by ring, by ring⟩, ⟨by ring, by ring⟩, by ring, by ring⟩

/-- C7: bezierToPowerMatrix fails with the NotImplemented error for every
degree other than 2 and 3 and returns the exact conversion matrices for
degrees 2 and 3: the returned power-basis coefficients evaluate to the
same point as the Bernstein evaluation; consequently bezierToPolynomial
fails exactly on control polygons whose degree is outside 2 and 3. -/
theorem C7_bezierToPowerMatrix_degrees (m : ℕ) (points : List Point) :
    (m ≠ 2 → m ≠ 3 →
      bezierToPowerMatrix m
        = Except.error
            ("Bezier to power basis matrix not implemented for degree " ++ toString m))
    ∧ bezierToPowerMatrix 2 = Except.ok [[1, -2, 1], [-2, 2, 0], [1, 0, 0]]
    ∧ bezierToPowerMatrix 3
        = Except.ok [[-1, 3, -3, 1], [3, -6, 3, 0], [-3, 3, 0, 0], [1, 0, 0, 0]]
    ∧ (points.length - 1 ≠ 2 → points.length - 1 ≠ 3 →
        bezierToPolynomial points
          = Except.error
              ("Bezier to power basis matrix not implemented for degree "
                ++ toString (points.length - 1)))
    ∧ (∀ (p0 p1 p2 : Point) (u : ℚ), ∃ cx cy,
        bezierToPolynomial [p0, p1, p2] = Except.ok (cx, cy)
        ∧ evaluateBezier [p0, p1, p2] u = ⟨evalPower cx u, evalPower cy u⟩)
    ∧ (∀ (p0 p1 p2 p3 : Point) (u : ℚ), ∃ cx cy,
        bezierToPolynomial [p0, p1, p2, p3] = Except.ok (cx, cy)
        ∧ evaluateBezier [p0, p1, p2, p3] u = ⟨evalPower cx u, evalPower cy u⟩) := by
  have herr : ∀ j : ℕ, j ≠ 2 → j ≠ 3 →
      bezierToPowerMatrix j
        = Except.error
            ("Bezier to power basis matrix not implemented for degree " ++ toString j) := by
    intro j h2 h3
    rw [bezierToPowerMatrix, if_neg h2, if_neg h3]
  have b20 : binomial 2 0 = 1 := by norm_num [binomial]
  have b21 : binomial 2 1 = 2 := by norm_num [binomial, List.range_succ]
  have b22 : binomial 2 2 = 1 := by norm_num [binomial]
  have b30 : binomial 3 0 = 1 := by norm_num [binomial]
  have b31 : binomial 3 1 = 3 := by norm_num [binomial, List.range_succ]
  have b32 : binomial 3 2 = 3 := by norm_num [binomial, List.range_succ]
  have b33 : binomial 3 3 = 1 := by norm_num [binomial]
  refine ⟨herr m, rfl, rfl, ?_, ?_, ?_⟩
  · intro h2 h3
    simp only [bezierToPolynomial, herr (points.length - 1) h2 h3]
  · intro p0 p1 p2 u
    refine ⟨_, _, rfl, ?_⟩
    simp only [evaluateBezier, bezierToPolynomial, bezierToPowerMatrix, evalPower,
      multiplyVector, bernstein, List.map_cons, List.map_nil, List.headD_cons,
      List.length_cons, List.length_nil, List.getD_cons_zero, List.getD_cons_succ,
      Finset.sum_range_succ, Finset.sum_range_zero, List.foldl_cons, List.foldl_nil,
      Point.mk.injEq]
    norm_num [b20, b21, b22]
    constructor <;> ring
  · intro p0 p1 p2 p3 u
    refine ⟨_, _, rfl, ?_⟩
    simp only [evaluateBezier, bezierToPolynomial, bezierToPowerMatrix, evalPower,
      multiplyVector, bernstein, List.map_cons, List.map_nil, List.headD_cons,
      List.length_cons, List.length_nil, List.getD_cons_zero, List.getD_cons_succ,
      Finset.sum_range_succ, Finset.sum_range_zero, List.foldl_cons, List.foldl_nil,
      Point.mk.injEq]
    norm_num [b30, b31, b32, b33]
    constructor <;> ring

/-- Concrete instantiation of the C7 theorem at degree 5 and a two-point
polygon of degree 1. -/
theorem C7_bezierToPowerMatrix_degrees_witness :
    (5 ≠ 2 ∧ 5 ≠ 3 ∧ ([pZero, pZero] : List Point).length - 1 ≠ 2
      ∧ ([pZero, pZero] : List Point).length - 1 ≠ 3)
    ∧ bezierToPowerMatrix 5
        = Except.error
            ("Bezier to power basis matrix not implemented for degree " ++ toString 5)
    ∧ bezierToPolynomial [pZero, pZero]
        = Except.error
            ("Bezier to power basis matrix not implemented for degree "
              ++ toString (([pZero, pZero] : List Point).length - 1)) :=
  ⟨⟨by decide, by decide, by decide, by decide⟩,
   (C7_bezierToPowerMatrix_degrees 5 [pZero, pZero]).1 (by decide) (by decide),
   (C7_bezierToPowerMatrix_degrees 5 [pZero, pZero]).2.2.2.1 (by decide) (by decide)⟩

/-- One interpolation level shortens the control polygon by one point. -/
theorem lerpPoints_length (u : ℚ) (ps : List Point) :
    (lerpPoints u ps).length = ps.length - 1 := by
  simp [lerpPoints]

/-- Fuel equal to the list length is enough for deCasteljauFuel, and the
result is the value of deCasteljau. -/
theorem deCasteljauFuel_length_eq :
    ∀ (m : ℕ) (points : List Point) (u : ℚ), points.length = m + 1 →
      deCasteljauFuel points.length points u = some (deCasteljau points u) := by
  intro m
  induction m with
  | zero =>
      intro points u hlen
      rcases points with _ | ⟨p, _ | ⟨q, rest⟩⟩
      · simp only [List.length_nil] at hlen
        omega
      · simp [deCasteljauFuel, deCasteljau]
      · simp only [List.length_cons, List.length_nil] at hlen
        omega
  | succ m ih =>
      intro points u hlen
      rcases points with _ | ⟨p, _ | ⟨q, rest⟩⟩
      · simp only [List.length_nil] at hlen
        omega
      · simp only [List.length_cons, List.length_nil] at hlen
        omega
      · have hlerp : (lerpPoints u (p :: q :: rest)).length = m + 1 := by
          rw [lerpPoints_length]
          simp only [List.length_cons] at hlen ⊢
          omega
        rw [show (p :: q :: rest).length = m + 1 + 1 from hlen, deCasteljauFuel,
          if_neg (by simp)]
        conv_rhs => rw [deCasteljau]
        rw [← hlerp]
        exact ih (lerpPoints u (p :: q :: rest)) u hlerp

/-- C10: deCasteljau terminates on every non-empty control-point list
because each recursive call is on a list exactly one element shorter:
fuel equal to the list length already suffices and yields the value of
the recursion, while from the empty list the single-point base case is
never reached and every finite fuel is exhausted. -/
theorem C10_deCasteljau_terminates (points : List Point) (u : ℚ) :
    (points ≠ [] →
      deCasteljauFuel points.length points u = some (deCasteljau points u))
    ∧ (∀ fuel, deCasteljauFuel fuel [] u = none) := by
  constructor
  · intro hne
    obtain ⟨m, hm⟩ : ∃ m, points.length = m + 1 := by
      cases points with
      | nil => exact absurd rfl hne
      | cons a as => exact ⟨as.length, by simp⟩
    exact deCasteljauFuel_length_eq m points u hm
  · intro fuel
    induction fuel with
    | zero => rfl
    | succ fuel ih =>
        rw [deCasteljauFuel, if_neg (by simp)]
        simpa [lerpPoints] using ih

/-- Concrete instantiation of the C10 theorem on a two-point polygon. -/
theorem C10_deCasteljau_terminates_witness :
    ([⟨0,0⟩, ⟨1,1⟩] : List Point) ≠ []
    ∧ deCasteljauFuel 2 [⟨0,0⟩, ⟨1,1⟩] 1 = some (deCasteljau [⟨0,0⟩, ⟨1,1⟩] 1) :=
  ⟨by decide, (C10_deCasteljau_terminates [⟨0,0⟩, ⟨1,1⟩] 1).1 (by decide)⟩

/-- The incremental product loop of binomial computes the binomial
coefficient exactly. -/
theorem binomial_loop_eq_choose (n : ℕ) :
    ∀ k : ℕ, k ≤ n →
      (List.range k).foldl
        (fun (result : ℚ) (i : ℕ) =>
          result * (((n : ℚ) + 1 - ((i : ℚ) + 1)) / ((i : ℚ) + 1))) 1
      = (n.choose k : ℚ) := by
  intro k
  induction k with
  | zero => simp
  | succ k ih =>
      intro hk
      rw [List.range_succ, List.foldl_append, ih (by omega), List.foldl_cons,
        List.foldl_nil]
      have hc := Nat.choose_succ_right_eq n k
      have hcq : (n.choose (k+1) : ℚ) * ((k:ℚ)+1) = (n.choose k : ℚ) * ((n:ℚ) - (k:ℚ)) := by
        have h2 := congrArg (fun t : ℕ => (t : ℚ)) hc
        push_cast [Nat.cast_sub (by omega : k ≤ n)] at h2
        linarith [h2]
      have hkne : ((k:ℚ)+1) ≠ 0 := by positivity
      rw [← mul_div_assoc, div_eq_iff hkne]
      linear_combination (-1 : ℚ) * hcq

/-- binomial agrees with the binomial coefficient on all indices. -/
theorem binomial_eq_choose (n k : ℕ) : binomial n k = (n.choose k : ℚ) := by
  rw [binomial]
  by_cases h1 : k > n
  · rw [if_pos h1, Nat.choose_eq_zero_of_lt h1, Nat.cast_zero]
  · rw [if_neg h1]
    by_cases h2 : k = 0 ∨ k = n
    · rw [if_pos h2]
      rcases h2 with rfl | rfl
      · simp
      · simp [Nat.choose_self]
    · rw [if_neg h2]
      exact binomial_loop_eq_choose n k (by omega)

/-- Closed form of bernstein in terms of the binomial coefficient; the
form holds on every index because the coefficient vanishes above n. -/
theorem bernstein_eq (i n : ℕ) (u : ℚ) :
    bernstein i n u = (n.choose i : ℚ) * (1 - u) ^ (n - i) * u ^ i := by
  rw [bernstein]
  by_cases h : i > n
  · rw [if_pos h, Nat.choose_eq_zero_of_lt h]
    simp
  · rw [if_neg h, binomial_eq_choose]

/-- Pascal recurrence for the Bernstein basis, inner indices. -/
theorem bernstein_succ_succ (i n : ℕ) (u : ℚ) :
    bernstein (i+1) (n+1) u = (1 - u) * bernstein (i+1) n u + u * bernstein i n u := by
  rcases lt_trichotomy i n with h | rfl | h
  · rw [bernstein_eq, bernstein_eq, bernstein_eq]
    have h1 : n + 1 - (i + 1) = (n - (i+1)) + 1 := by omega
    have h2 : n - i = (n - (i+1)) + 1 := by omega
    have hch : ((n+1).choose (i+1) : ℚ) = (n.choose i : ℚ) + (n.choose (i+1) : ℚ) := by
      exact_mod_cast congrArg (fun t : ℕ => (t : ℚ)) (Nat.choose_succ_succ n i)
    rw [h1, h2, hch]
    ring
  · rw [bernstein_eq, bernstein_eq, bernstein_eq, Nat.choose_self, Nat.choose_succ_self,
      Nat.choose_self]
    simp [pow_succ]
    ring
  · rw [bernstein_eq, bernstein_eq, bernstein_eq,
      Nat.choose_eq_zero_of_lt (by omega), Nat.choose_eq_zero_of_lt (by omega),
      Nat.choose_eq_zero_of_lt (by omega)]
    simp

/-- Pascal recurrence for the Bernstein basis, index zero. -/
theorem bernstein_zero_succ (n : ℕ) (u : ℚ) :
    bernstein 0 (n+1) u = (1 - u) * bernstein 0 n u := by
  rw [bernstein_eq, bernstein_eq]
  simp only [Nat.choose_zero_right, Nat.cast_one, Nat.sub_zero, pow_zero, pow_succ]
  ring

/-- One de Casteljau interpolation level preserves the Bernstein-weighted
sum while lowering the degree by one. -/
theorem bernstein_sum_step (u : ℚ) (f : ℕ → ℚ) (m : ℕ) :
    (∑ i ∈ Finset.range (m+1), ((1 - u) * f i + u * f (i+1)) * bernstein i m u)
      = ∑ i ∈ Finset.range (m+2), f i * bernstein i (m+1) u := by
  have hB : bernstein (m+1) m u = 0 := by
    rw [bernstein, if_pos (Nat.lt_succ_self m)]
  have hL : (∑ i ∈ Finset.range (m+1), ((1 - u) * f i + u * f (i+1)) * bernstein i m u)
      = (1-u) * (∑ i ∈ Finset.range (m+1), f i * bernstein i m u)
        + u * (∑ i ∈ Finset.range (m+1), f (i+1) * bernstein i m u) := by
    rw [Finset.mul_sum, Finset.mul_sum, ← Finset.sum_add_distrib]
    exact Finset.sum_congr rfl fun i _ => by ring
  rw [hL, show m + 2 = (m+1) + 1 from rfl,
    Finset.sum_range_succ' (fun i => f i * bernstein i (m+1) u) (m+1)]
  simp only [bernstein_succ_succ, bernstein_zero_succ]
  have hsplit : (∑ i ∈ Finset.range (m+1),
      f (i+1) * ((1-u) * bernstein (i+1) m u + u * bernstein i m u))
      = (1-u) * (∑ i ∈ Finset.range (m+1), f (i+1) * bernstein (i+1) m u)
        + u * (∑ i ∈ Finset.range (m+1), f (i+1) * bernstein i m u) := by
    rw [Finset.mul_sum, Finset.mul_sum, ← Finset.sum_add_distrib]
    exact Finset.sum_congr rfl fun i _ => by ring
  rw [hsplit]
  have hshift : (∑ i ∈ Finset.range (m+1), f (i+1) * bernstein (i+1) m u)
      = (∑ i ∈ Finset.range (m+1), f i * bernstein i m u) - f 0 * bernstein 0 m u := by
    have hk := Finset.sum_range_succ' (fun i => f i * bernstein i m u) (m+1)
    have hdrop : (∑ i ∈ Finset.range (m+1+1), f i * bernstein i m u)
        = ∑ i ∈ Finset.range (m+1), f i * bernstein i m u := by
      rw [Finset.sum_range_succ, hB, mul_zero, add_zero]
    rw [hdrop] at hk
    linarith [hk]
  rw [hshift]
  ring

/-- Reading an interpolated point out of one de Casteljau level. -/
theorem lerpPoints_getD (u : ℚ) :
    ∀ (ps : List Point) (i : ℕ), i + 1 < ps.length →
      (lerpPoints u ps).getD i pZero
        = ⟨(1-u) * (ps.getD i pZero).x + u * (ps.getD (i+1) pZero).x,
           (1-u) * (ps.getD i pZero).y + u * (ps.getD (i+1) pZero).y⟩
  | [], i, h => by simp at h
  | [p], i, h => by
      simp only [List.length_cons, List.length_nil] at h
      omega
  | p :: q :: rest, 0, _ => by
      simp [lerpPoints]
  | p :: q :: rest, i+1, h => by
      have hrec := lerpPoints_getD u (q :: rest) i (by
        simp only [List.length_cons] at h ⊢
        omega)
      simp only [lerpPoints, List.tail_cons, List.zipWith_cons_cons, List.getD_cons_succ]
      simpa [lerpPoints] using hrec

/-- One interpolation level does not change the Bezier evaluation. -/
theorem evaluateBezier_lerp (u : ℚ) (ps : List Point) (h : 2 ≤ ps.length) :
    evaluateBezier (lerpPoints u ps) u = evaluateBezier ps u := by
  obtain ⟨m, hm⟩ : ∃ m, ps.length = m + 2 := ⟨ps.length - 2, by omega⟩
  have hL1 : (lerpPoints u ps).length - 1 = m := by
    rw [lerpPoints_length]
    omega
  have hL2 : ps.length - 1 = m + 1 := by omega
  rw [evaluateBezier, evaluateBezier, hL1, hL2]
  have hx : (∑ i ∈ Finset.range (m+1), ((lerpPoints u ps).getD i pZero).x * bernstein i m u)
      = ∑ i ∈ Finset.range (m+1),
          ((1-u) * (ps.getD i pZero).x + u * (ps.getD (i+1) pZero).x) * bernstein i m u := by
    refine Finset.sum_congr rfl fun i hi => ?_
    have hi' : i + 1 < ps.length := by
      have := Finset.mem_range.mp hi
      omega
    rw [lerpPoints_getD u ps i hi']
  have hy : (∑ i ∈ Finset.range (m+1), ((lerpPoints u ps).getD i pZero).y * bernstein i m u)
      = ∑ i ∈ Finset.range (m+1),
          ((1-u) * (ps.getD i pZero).y + u * (ps.getD (i+1) pZero).y) * bernstein i m u := by
    refine Finset.sum_congr rfl fun i hi => ?_
    have hi' : i + 1 < ps.length := by
      have := Finset.mem_range.mp hi
      omega
    rw [lerpPoints_getD u ps i hi']
  rw [hx, hy, bernstein_sum_step u (fun i => (ps.getD i pZero).x) m,
    bernstein_sum_step u (fun i => (ps.getD i pZero).y) m]

/-- The de Casteljau recursion computes the Bernstein evaluation, by
induction on the length of the control polygon. -/
theorem deCasteljau_eq_evaluateBezier_aux :
    ∀ (m : ℕ), ∀ (ps : List Point) (u : ℚ), ps.length = m + 1 →
      deCasteljau ps u = evaluateBezier ps u := by
  intro m
  induction m with
  | zero =>
      intro ps u hlen
      rcases ps with _ | ⟨p, _ | ⟨q, rest⟩⟩
      · simp only [List.length_nil] at hlen
        omega
      · rw [deCasteljau, evaluateBezier]
        simp [bernstein, binomial]
      · simp only [List.length_cons, List.length_nil] at hlen
        omega
  | succ m ih =>
      intro ps u hlen
      rcases ps with _ | ⟨p, _ | ⟨q, rest⟩⟩
      · simp only [List.length_nil] at hlen
        omega
      · simp only [List.length_cons, List.length_nil] at hlen
        omega
      · rw [deCasteljau]
        rw [ih (lerpPoints u (p :: q :: rest)) u (by
          rw [lerpPoints_length]
          simp only [List.length_cons] at hlen ⊢
          omega)]
        exact evaluateBezier_lerp u (p :: q :: rest) (by simp)

/-- C3: for every non-empty control polygon and every u in [0,1], the
recursive de Casteljau evaluation equals the Bernstein-basis evaluation
exactly over the rationals. -/
theorem C3_deCasteljau_eq_evaluateBezier (points : List Point) (u : ℚ)
    (hne : points ≠ []) (h0 : 0 ≤ u) (h1 : u ≤ 1) :
    deCasteljau points u = evaluateBezier points u := by
  obtain ⟨m, hm⟩ : ∃ m, points.length = m + 1 := by
    cases points with
    | nil => exact absurd rfl hne
    | cons a as => exact ⟨as.length, by simp⟩
  exact deCasteljau_eq_evaluateBezier_aux m points u hm

/-- Concrete instantiation of the C3 theorem on a quadratic polygon. -/
theorem C3_deCasteljau_eq_evaluateBezier_witness :
    (([⟨0,0⟩, ⟨1,2⟩, ⟨3,3⟩] : List Point) ≠ [] ∧ (0:ℚ) ≤ 1 ∧ (1:ℚ) ≤ 1)
    ∧ deCasteljau [⟨0,0⟩, ⟨1,2⟩, ⟨3,3⟩] 1 = evaluateBezier [⟨0,0⟩, ⟨1,2⟩, ⟨3,3⟩] 1 :=
  ⟨⟨by decide, by decide, by decide⟩,
   C3_deCasteljau_eq_evaluateBezier [⟨0,0⟩, ⟨1,2⟩, ⟨3,3⟩] 1
     (by decide) (by decide) (by decide)⟩

/-- C2: at the test input named by the spec the trimmed curve does not
reproduce the original curve.  For points [(0,0),(1,2),(3,3),(4,0)] and
range u1 = 1/4, u2 = 3/4, the trimmed polygon evaluated at local
parameter v = 0 is (33/16, 33/32), while the original curve at
u1 + 0 * (u2 - u1) = 1/4 is (29/32, 81/64): the final pointwise blend of
the left-subdivision-at-u1 and right-subdivision-at-u2 polygons with
weight alpha is not the control polygon of the restricted curve. -/
theorem C2_trimmed_curve_does_not_match_original :
    evaluateBezier (getTrimmedControlPoints [⟨0,0⟩, ⟨1,2⟩, ⟨3,3⟩, ⟨4,0⟩] ⟨1/4, 3/4⟩) 0
      = ⟨33/16, 33/32⟩
    ∧ evaluateBezier [⟨0,0⟩, ⟨1,2⟩, ⟨3,3⟩, ⟨4,0⟩] (1/4) = ⟨29/32, 81/64⟩
    ∧ evaluateBezier (getTrimmedControlPoints [⟨0,0⟩, ⟨1,2⟩, ⟨3,3⟩, ⟨4,0⟩] ⟨1/4, 3/4⟩) 0
        ≠ evaluateBezier [⟨0,0⟩, ⟨1,2⟩, ⟨3,3⟩, ⟨4,0⟩] (1/4) := by
  have htrim : getTrimmedControlPoints [⟨0,0⟩, ⟨1,2⟩, ⟨3,3⟩, ⟨4,0⟩] ⟨1/4, 3/4⟩
      = [⟨33/16, 33/32⟩, ⟨19/8, 1⟩, ⟨43/16, 13/16⟩, ⟨95/32, 27/64⟩] := by
    norm_num [getTrimmedControlPoints, collectHeads, collectLasts, lerpPoints,
      List.zipWith, List.headD, List.getLastD, List.range_succ, Point.mk.injEq]
  have h1 : evaluateBezier
      (getTrimmedControlPoints [⟨0,0⟩, ⟨1,2⟩, ⟨3,3⟩, ⟨4,0⟩] ⟨1/4, 3/4⟩) 0
      = ⟨33/16, 33/32⟩ := by
    rw [htrim]
    norm_num [evaluateBezier, bernstein, binomial, Finset.sum_range_succ,
      List.range_succ, Point.mk.injEq]
  have h2 : evaluateBezier [⟨0,0⟩, ⟨1,2⟩, ⟨3,3⟩, ⟨4,0⟩] (1/4) = ⟨29/32, 81/64⟩ := by
    norm_num [evaluateBezier, bernstein, binomial, Finset.sum_range_succ,
      List.range_succ, Point.mk.injEq]
  refine ⟨h1, h2, ?_⟩
  rw [h1, h2]
  intro hcontra
  rw [Point.mk.injEq] at hcontra
  have := hcontra.1
  norm_num at this

end CurveStudio
